import Mathlib

/-!
Verification of the inventory management system in
`cleaned_inventory_system.py`.

The `InventoryManager` class owns one piece of state, `stock_data`, a
Python dict from item name (string) to quantity (integer).  We embed the
dict as an association list with unique keys kept in insertion order, and
each method as a pure function that takes the stock before the call and
returns the value produced together with the stock after the call.
-/

/-- The Stock Map: the Python dict `stock_data` from item name to integer
quantity, embedded as an association list.  A Python dict never holds two
entries with the same key and iterates in insertion order. -/
abbrev Stock := List (String × Int)

/-- Dict lookup `stock_data[item]` and `stock_data.get(item)`: the value at
the first matching key, `none` when the key is absent (where Python raises
`KeyError`, respectively returns the supplied default). -/
def Stock.find : Stock → String → Option Int
  | [], _ => none
  | (i, v) :: rest, item => if i = item then some v else Stock.find rest item

/-- Dict assignment `stock_data[item] = q`: replaces the value at an
existing key in place, otherwise appends a new entry at the end (Python
dicts keep insertion order). -/
def Stock.setItem : Stock → String → Int → Stock
  | [], item, q => [(item, q)]
  | (i, v) :: rest, item, q =>
      if i = item then (i, q) :: rest else (i, v) :: Stock.setItem rest item q

/-- Dict deletion `del stock_data[item]`: removes the entry at the key. -/
def Stock.eraseItem : Stock → String → Stock
  | [], _ => []
  | (i, v) :: rest, item =>
      if i = item then rest else (i, v) :: Stock.eraseItem rest item

/-- `InventoryManager.add_item(item, qty, logs)`.  If the item name is
falsy (for a string: empty) the method returns at once, touching neither
the stock nor the logs.  Otherwise it sets
`stock_data[item] = stock_data.get(item, 0) + qty` and appends one line to
the log list.  `now` stands for the text of `datetime.now()`; when the
caller passes no log list the method appends to a fresh local list, which
is the same as passing `[]`.  Returns the stock and the log list after the
call. -/
def add_item (s : Stock) (item : String) (qty : Int) (logs : List String)
    (now : String) : Stock × List String :=
  if item = "" then (s, logs)
  else (Stock.setItem s item ((Stock.find s item).getD 0 + qty),
        logs ++ [now ++ ": Added " ++ toString qty ++ " of " ++ item])

/-- `InventoryManager.remove_item(item, qty)`.  The body runs
`stock_data[item] -= qty` and deletes the entry when the stored value is
then `<= 0`; a `KeyError` from the first access (item absent) is caught
and turned into a printed notice, so the caller never sees an exception.
Returns the stock after the call together with the lines printed to
standard output. -/
def remove_item (s : Stock) (item : String) (qty : Int) : Stock × List String :=
  match Stock.find s item with
  | none => (s, ["Error: " ++ item ++ " not found in inventory."])
  | some v =>
      if v - qty ≤ 0 then
        (Stock.eraseItem (Stock.setItem s item (v - qty)) item, [])
      else
        (Stock.setItem s item (v - qty), [])

/-- `InventoryManager.get_qty(item)`: returns `stock_data[item]` — `none`
models the uncaught `KeyError` (lookup error) when the item is absent.
The method contains no assignment, so the stock after the call is the
stock before it. -/
def get_qty (s : Stock) (item : String) : Option Int × Stock :=
  (Stock.find s item, s)

/-- The loop body of `check_low_items`: walks the dict in order and
collects every item name whose stored quantity is strictly below the
threshold.  For a dict (unique keys) the value `stock_data[i]` read by the
loop is the value paired with `i` in the entry being visited. -/
def low_items_loop : Stock → Int → List String
  | [], _ => []
  | (i, q) :: rest, t =>
      if q < t then i :: low_items_loop rest t else low_items_loop rest t

/-- `InventoryManager.check_low_items(threshold)` (the source gives
`threshold` the default 5): returns the list of low item names and, the
method containing no assignment, the unchanged stock. -/
def check_low_items (s : Stock) (threshold : Int) : List String × Stock :=
  (low_items_loop s threshold, s)

/-- Modelled from the spec: the content of the file at the load/save path
as the store sees it.  The `json` module used by `load_data` and
`save_data` is Python library code, not part of this repository; per the
spec's external-interface section the persisted format is a JSON object
mapping item-name strings to integer values, which a save/load pair
reproduces exactly, so a well-formed file is embedded as the Stock Map it
denotes.  `absent` is a file that cannot be opened and `invalid` one whose
contents are not valid JSON. -/
inductive FileContent where
  | absent : FileContent
  | invalid : FileContent
  | object : Stock → FileContent

/-- The failures `load_data` can raise: an I/O error when `open` fails and
a parse error when `json.load` fails. -/
inductive LoadErr where
  | ioError : LoadErr
  | parseError : LoadErr

/-- `InventoryManager.load_data(file)`: opens the file, parses it, and
only then assigns `self.stock_data = json.load(f)` — on either failure the
exception propagates before the assignment runs, so the first component
(the stock after the call) is the old stock whenever the second component
reports an error. -/
def load_data (s : Stock) (f : FileContent) : Stock × Option LoadErr :=
  match f with
  | FileContent.absent => (s, some LoadErr.ioError)
  | FileContent.invalid => (s, some LoadErr.parseError)
  | FileContent.object m => (m, none)

/-- `InventoryManager.save_data(file)`: serializes the current stock and
writes it to the path, overwriting whatever the file held before. -/
def save_data (s : Stock) (_f : FileContent) : FileContent :=
  FileContent.object s

/-- One store operation, for reasoning about sequences of calls. -/
inductive Op where
  | add : String → Int → Op
  | remove : String → Int → Op

/-- Runs one operation on the stock (logs and printed output are
irrelevant to the stock and dropped). -/
def applyOp (s : Stock) : Op → Stock
  | Op.add item qty => (add_item s item qty [] "").1
  | Op.remove item qty => (remove_item s item qty).1

/-- Runs a sequence of operations left to right. -/
def applyOps (s : Stock) : List Op → Stock
  | [] => s
  | op :: rest => applyOps (applyOp s op) rest

/-- Every entry of the stock carries a strictly positive quantity. -/
def PosStock (s : Stock) : Prop := ∀ p ∈ s, 0 < p.2

/-- The operation is an add with strictly positive quantity, or any
remove. -/
def opAddPositive : Op → Prop
  | Op.add _ qty => 1 ≤ qty
  | Op.remove _ _ => True

/-! ### Lemmas about dict lookup, assignment and deletion -/

/-- Lookup misses exactly when the key is absent. -/
theorem Stock.find_eq_none {s : Stock} {item : String} :
    Stock.find s item = none ↔ item ∉ s.map Prod.fst := by
  induction s with
  | nil => simp [Stock.find]
  | cons p rest ih =>
      obtain ⟨i, v⟩ := p
      by_cases h : i = item
      · subst h
        simp [Stock.find]
      · simp [Stock.find, h, ih, Ne.symm h]

/-- A successful lookup returns the value of an entry of the list. -/
theorem Stock.find_some_mem {s : Stock} {item : String} {v : Int}
    (h : Stock.find s item = some v) : (item, v) ∈ s := by
  induction s with
  | nil => simp [Stock.find] at h
  | cons p rest ih =>
      obtain ⟨i, w⟩ := p
      by_cases hi : i = item
      · subst hi
        simp [Stock.find] at h
        simp [h]
      · simp [Stock.find, hi] at h
        exact List.mem_cons_of_mem _ (ih h)

/-- With unique keys, lookup finds the value of any entry of the list. -/
theorem Stock.mem_find {s : Stock} {item : String} {v : Int}
    (hnd : (s.map Prod.fst).Nodup) (h : (item, v) ∈ s) :
    Stock.find s item = some v := by
  induction s with
  | nil => simp at h
  | cons p rest ih =>
      obtain ⟨i, w⟩ := p
      rw [List.map_cons, List.nodup_cons] at hnd
      rcases List.mem_cons.mp h with h1 | h1
      · obtain ⟨rfl, rfl⟩ := Prod.mk.injEq .. ▸ h1
        simp [Stock.find]
      · by_cases hi : i = item
        · subst hi
          exact absurd (List.mem_map_of_mem Prod.fst h1) hnd.1
        · simp only [Stock.find, if_neg hi]
          exact ih hnd.2 h1

/-- Assignment makes the key hold the assigned value. -/
theorem Stock.find_setItem_self (s : Stock) (item : String) (q : Int) :
    Stock.find (Stock.setItem s item q) item = some q := by
  induction s with
  | nil => simp [Stock.setItem, Stock.find]
  | cons p rest ih =>
      obtain ⟨i, v⟩ := p
      by_cases hi : i = item
      · subst hi
        simp [Stock.setItem, Stock.find]
      · simp [Stock.setItem, Stock.find, hi, ih]

/-- Every entry after an assignment is an old entry or the assigned one. -/
theorem Stock.mem_setItem {s : Stock} {item : String} {q : Int}
    {p : String × Int} (h : p ∈ Stock.setItem s item q) :
    p ∈ s ∨ p = (item, q) := by
  induction s with
  | nil =>
      simp [Stock.setItem] at h
      simp [h]
  | cons hd rest ih =>
      obtain ⟨i, v⟩ := hd
      by_cases hi : i = item
      · subst hi
        simp only [Stock.setItem, if_pos rfl] at h
        rcases List.mem_cons.mp h with h1 | h1
        · right
          simp [h1]
        · left
          exact List.mem_cons_of_mem _ h1
      · simp only [Stock.setItem, if_neg hi] at h
        rcases List.mem_cons.mp h with h1 | h1
        · left
          simp [h1]
        · rcases ih h1 with h2 | h2
          · left
            exact List.mem_cons_of_mem _ h2
          · right
            exact h2

/-- Every entry surviving a deletion was an entry before it. -/
theorem Stock.mem_eraseItem {s : Stock} {item : String} {p : String × Int}
    (h : p ∈ Stock.eraseItem s item) : p ∈ s := by
  induction s with
  | nil => simp [Stock.eraseItem] at h
  | cons hd rest ih =>
      obtain ⟨i, v⟩ := hd
      by_cases hi : i = item
      · subst hi
        simp only [Stock.eraseItem, if_pos rfl] at h
        exact List.mem_cons_of_mem _ h
      · simp only [Stock.eraseItem, if_neg hi] at h
        rcases List.mem_cons.mp h with h1 | h1
        · simp [h1]
        · exact List.mem_cons_of_mem _ (ih h1)

/-- Deleting a key right after assigning it deletes it from the original
list: the assignment replaced the first occurrence (or appended a fresh
one) and the deletion removes exactly that occurrence. -/
theorem Stock.eraseItem_setItem (s : Stock) (item : String) (q : Int) :
    Stock.eraseItem (Stock.setItem s item q) item = Stock.eraseItem s item := by
  induction s with
  | nil => simp [Stock.setItem, Stock.eraseItem]
  | cons hd rest ih =>
      obtain ⟨i, v⟩ := hd
      by_cases hi : i = item
      · subst hi
        simp [Stock.setItem, Stock.eraseItem]
      · simp [Stock.setItem, Stock.eraseItem, hi, ih]

/-- With unique keys, a deleted key is gone. -/
theorem Stock.find_eraseItem_self {s : Stock} {item : String}
    (hnd : (s.map Prod.fst).Nodup) :
    Stock.find (Stock.eraseItem s item) item = none := by
  induction s with
  | nil => simp [Stock.eraseItem, Stock.find]
  | cons hd rest ih =>
      obtain ⟨i, v⟩ := hd
      rw [List.map_cons, List.nodup_cons] at hnd
      by_cases hi : i = item
      · subst hi
        simp only [Stock.eraseItem, if_pos rfl]
        exact Stock.find_eq_none.mpr hnd.1
      · simp only [Stock.eraseItem, Stock.find, if_neg hi]
        exact ih hnd.2

/-- The low-stock loop collects exactly the names paired with a value
below the threshold. -/
theorem low_items_loop_mem {s : Stock} {t : Int} {item : String} :
    item ∈ low_items_loop s t ↔ ∃ q, (item, q) ∈ s ∧ q < t := by
  induction s with
  | nil => simp [low_items_loop]
  | cons hd rest ih =>
      obtain ⟨i, v⟩ := hd
      by_cases hv : v < t
      · constructor
        · intro h
          rcases List.mem_cons.mp (by simpa [low_items_loop, hv] using h) with h1 | h1
          · exact ⟨v, by simp [h1], hv⟩
          · obtain ⟨q, hq, hlt⟩ := ih.mp h1
            exact ⟨q, List.mem_cons_of_mem _ hq, hlt⟩
        · rintro ⟨q, hq, hlt⟩
          simp only [low_items_loop, if_pos hv]
          rcases List.mem_cons.mp hq with h1 | h1
          · exact List.mem_cons.mpr (Or.inl (congrArg Prod.fst h1))
          · exact List.mem_cons_of_mem _ (ih.mpr ⟨q, h1, hlt⟩)
      · constructor
        · intro h
          obtain ⟨q, hq, hlt⟩ := ih.mp (by simpa [low_items_loop, hv] using h)
          exact ⟨q, List.mem_cons_of_mem _ hq, hlt⟩
        · rintro ⟨q, hq, hlt⟩
          rcases List.mem_cons.mp hq with h1 | h1
          · have hqv : q = v := congrArg Prod.snd h1
            exact absurd (hqv ▸ hlt) hv
          · simpa [low_items_loop, hv] using ih.mpr ⟨q, h1, hlt⟩

/-! ### Preservation of strictly positive quantities -/

/-- Adding a strictly positive quantity keeps every entry strictly
positive. -/
theorem add_item_pos {s : Stock} {item : String} {qty : Int}
    {logs : List String} {now : String}
    (hs : PosStock s) (hq : 1 ≤ qty) :
    PosStock ((add_item s item qty logs now).1) := by
  by_cases hitem : item = ""
  · simpa [add_item, hitem] using hs
  · intro p hp
    have hp2 : p ∈ Stock.setItem s item ((Stock.find s item).getD 0 + qty) := by
      simpa [add_item, hitem] using hp
    rcases Stock.mem_setItem hp2 with h | h
    · exact hs p h
    · subst h
      cases hfind : Stock.find s item with
      | none => simp [hfind]; omega
      | some v =>
          have hv := hs (item, v) (Stock.find_some_mem hfind)
          simp only at hv
          simp only [hfind, Option.getD_some]
          omega

/-- Removing any quantity keeps every entry strictly positive: an entry
driven to zero or below is deleted, any other entry keeps its value. -/
theorem remove_item_pos {s : Stock} {item : String} {qty : Int}
    (hs : PosStock s) : PosStock ((remove_item s item qty).1) := by
  intro p hp
  cases hfind : Stock.find s item with
  | none =>
      simp only [remove_item, hfind] at hp
      exact hs p hp
  | some v =>
      by_cases hle : v - qty ≤ 0
      · have hp2 : p ∈ Stock.eraseItem s item := by
          have hp3 := hp
          simp only [remove_item, hfind, if_pos hle] at hp3
          rwa [Stock.eraseItem_setItem] at hp3
        exact hs p (Stock.mem_eraseItem hp2)
      · have hp2 : p ∈ Stock.setItem s item (v - qty) := by
          simpa [remove_item, hfind, hle] using hp
        rcases Stock.mem_setItem hp2 with h | h
        · exact hs p h
        · subst h
          simp only
          omega

/-- One operation of a positive-add sequence preserves the invariant. -/
theorem applyOp_pos {s : Stock} {op : Op}
    (hs : PosStock s) (hop : opAddPositive op) : PosStock (applyOp s op) := by
  cases op with
  | add item qty => exact add_item_pos hs hop
  | remove item qty => exact remove_item_pos hs

/-- A sequence of operations whose adds are strictly positive preserves
the invariant. -/
theorem applyOps_pos {s : Stock} {ops : List Op} (hs : PosStock s)
    (hops : ∀ op ∈ ops, opAddPositive op) : PosStock (applyOps s ops) := by
  induction ops generalizing s with
  | nil => simpa [applyOps] using hs
  | cons op rest ih =>
      simp only [applyOps]
      exact ih (applyOp_pos hs (hops op (by simp)))
        (fun o ho => hops o (List.mem_cons_of_mem _ ho))

/-- After a non-empty-name add, the item holds its previous value (0 when
absent) plus the added quantity. -/
theorem add_item_find {s : Stock} {item : String} (qty : Int)
    (logs : List String) (now : String) (hitem : item ≠ "") :
    Stock.find (add_item s item qty logs now).1 item
      = some ((Stock.find s item).getD 0 + qty) := by
  simp [add_item, hitem, Stock.find_setItem_self]

/-! ### The claims -/

/-- C1: in a state where `item` is stored with quantity `q`,
`remove_item(item, qty)` deletes the entry when `q - qty <= 0`, so the
item is absent afterward and is never left with a negative quantity; when
`q - qty > 0` it leaves the entry with quantity `q - qty`. -/
theorem remove_item_spec (s : Stock) (item : String) (q qty : Int)
    (hnd : (s.map Prod.fst).Nodup) (hq : Stock.find s item = some q) :
    (q - qty ≤ 0 → Stock.find (remove_item s item qty).1 item = none) ∧
    (0 < q - qty → Stock.find (remove_item s item qty).1 item = some (q - qty)) := by
  constructor
  · intro hle
    simp only [remove_item, hq, if_pos hle]
    rw [Stock.eraseItem_setItem]
    exact Stock.find_eraseItem_self hnd
  · intro hpos
    have hle : ¬ (q - qty ≤ 0) := by omega
    simp only [remove_item, hq, if_neg hle]
    exact Stock.find_setItem_self s item (q - qty)

/-- C1 witness: removing 5 apples from a stock of 3 leaves no apple
entry. -/
theorem remove_item_spec_witness :
    Stock.find (remove_item [("apple", 3)] "apple" 5).1 "apple" = none :=
  (remove_item_spec [("apple", 3)] "apple" 3 5 (by decide) (by decide)).1 (by decide)

/-- C2 counterexample to the claim as stated: over arbitrary sequences of
`add_item` and `remove_item`, entries are not always strictly positive
after each operation — a single `add_item("banana", -2)` on the empty
store leaves a persistent entry with quantity `-2` (`add_item` never
deletes; only `remove_item` does). -/
theorem stock_positive_counterexample :
    ¬ (∀ p ∈ applyOps [] [Op.add "banana" (-2)], 0 < p.2) := by
  intro h
  exact absurd (h ("banana", -2) (by decide)) (by decide)

/-- C2 (amended): for every sequence of operations whose `add_item` calls
all use strictly positive quantities (removes arbitrary), after each
operation completes — that is, after every prefix of the sequence run from
the empty store — every entry remaining in the Stock Map has a strictly
positive quantity. -/
theorem stock_positive_after_each_op (ops p : List Op)
    (hops : ∀ op ∈ ops, opAddPositive op) (hp : ∃ r, p ++ r = ops) :
    PosStock (applyOps [] p) := by
  obtain ⟨r, rfl⟩ := hp
  refine applyOps_pos ?_ ?_
  · intro q hq
    simp at hq
  · intro op ho
    exact hops op (List.mem_append.mpr (Or.inl ho))

/-- C2 witness: after the prefix add 2, remove 1 of the sequence
add 2, remove 1, remove 5, every entry is strictly positive. -/
theorem stock_positive_after_each_op_witness :
    PosStock (applyOps [] [Op.add "a" 2, Op.remove "a" 1]) := by
  refine stock_positive_after_each_op
    [Op.add "a" 2, Op.remove "a" 1, Op.remove "a" 5]
    [Op.add "a" 2, Op.remove "a" 1] ?_ ⟨[Op.remove "a" 5], rfl⟩
  intro op hop
  rcases List.mem_cons.mp hop with rfl | hop
  · exact (by norm_num : (1 : Int) ≤ 2)
  · rcases List.mem_cons.mp hop with rfl | hop
    · exact trivial
    · rcases List.mem_cons.mp hop with rfl | hop
      · exact trivial
      · cases hop

/-- C3: for a non-empty item name, `add_item` sets the stored quantity to
its previous value (0 when absent) plus `qty`; in particular, starting
from a state where the item is absent, adding `q1` then `q2` leaves the
stored quantity `q1 + q2`, also for negative quantities. -/
theorem add_item_accumulates (s : Stock) (item : String) (q1 q2 qty : Int)
    (logs logs1 logs2 : List String) (now now1 now2 : String)
    (hitem : item ≠ "") :
    Stock.find (add_item s item qty logs now).1 item
        = some ((Stock.find s item).getD 0 + qty) ∧
    (Stock.find s item = none →
      Stock.find (add_item (add_item s item q1 logs1 now1).1 item q2 logs2 now2).1 item
        = some (q1 + q2)) := by
  refine ⟨add_item_find qty logs now hitem, ?_⟩
  intro habs
  rw [add_item_find q2 logs2 now2 hitem, add_item_find q1 logs1 now1 hitem, habs]
  simp only [Option.getD_none, Option.getD_some, Option.some.injEq]
  omega

/-- C3 witness: adding -2 then 5 of an absent item leaves quantity 3. -/
theorem add_item_accumulates_witness :
    Stock.find (add_item (add_item [] "apple" (-2) [] "t1").1 "apple" 5 [] "t2").1 "apple"
      = some (-2 + 5) :=
  (add_item_accumulates [] "apple" (-2) 5 0 [] [] [] "t0" "t1" "t2" (by decide)).2 rfl

/-- C4: saving the Stock Map and loading the written file into a fresh
(empty) store succeeds and reproduces the map exactly: the same list of
entries, hence the same key set and the same integer value at every
key. -/
theorem save_load_roundtrip (s : Stock) (f : FileContent) :
    (load_data [] (save_data s f)).2 = none ∧
    (load_data [] (save_data s f)).1 = s ∧
    ∀ item, Stock.find (load_data [] (save_data s f)).1 item = Stock.find s item :=
  ⟨rfl, rfl, fun _ => rfl⟩

/-- C5: a successful load replaces the whole Stock Map with the file's
contents, whatever the previous map was: no merge, and no previous entry
survives unless the file holds it. -/
theorem load_replaces (s m : Stock) :
    load_data s (FileContent.object m) = (m, none) ∧
    ∀ item, Stock.find (load_data s (FileContent.object m)).1 item = Stock.find m item :=
  ⟨rfl, fun _ => rfl⟩

/-- C6: `get_qty` fails with a lookup error exactly when the item is
absent, returns the stored quantity of any present item, and leaves the
Stock Map unchanged. -/
theorem get_qty_spec (s : Stock) (item : String)
    (hnd : (s.map Prod.fst).Nodup) :
    ((get_qty s item).1 = none ↔ item ∉ s.map Prod.fst) ∧
    (∀ q : Int, (item, q) ∈ s → (get_qty s item).1 = some q) ∧
    (get_qty s item).2 = s := by
  refine ⟨?_, ?_, rfl⟩
  · simpa [get_qty] using @Stock.find_eq_none s item
  · intro q hq
    simpa [get_qty] using Stock.mem_find hnd hq

/-- C6 witness: querying apple in a stock of 7 apples returns 7. -/
theorem get_qty_spec_witness :
    (get_qty [("apple", 7)] "apple").1 = some 7 :=
  ((get_qty_spec [("apple", 7)] "apple" (by decide)).2.1) 7 (by decide)

/-- C7: removing an absent item leaves the Stock Map unchanged, signals no
catchable failure, and prints exactly the notice
`Error: <item> not found in inventory.`. -/
theorem remove_item_missing (s : Stock) (item : String) (qty : Int)
    (h : Stock.find s item = none) :
    remove_item s item qty = (s, ["Error: " ++ item ++ " not found in inventory."]) := by
  simp [remove_item, h]

/-- C7 witness: removing an orange from the empty stock prints the notice
and changes nothing. -/
theorem remove_item_missing_witness :
    remove_item [] "orange" 1
      = ([], ["Error: " ++ "orange" ++ " not found in inventory."]) :=
  remove_item_missing [] "orange" 1 rfl

/-- C8: `check_low_items` returns exactly the item names stored with a
quantity strictly below the threshold (an item at exactly the threshold is
excluded) and leaves the Stock Map unchanged. -/
theorem check_low_items_spec (s : Stock) (t : Int) (item : String)
    (hnd : (s.map Prod.fst).Nodup) :
    (item ∈ (check_low_items s t).1 ↔ ∃ q, Stock.find s item = some q ∧ q < t) ∧
    (check_low_items s t).2 = s := by
  refine ⟨?_, rfl⟩
  simp only [check_low_items]
  rw [low_items_loop_mem]
  constructor
  · rintro ⟨q, hq, hlt⟩
    exact ⟨q, Stock.mem_find hnd hq, hlt⟩
  · rintro ⟨q, hq, hlt⟩
    exact ⟨q, Stock.find_some_mem hq, hlt⟩

/-- C8 witness: with apple at 10, banana at 2 and pear at 5, threshold 5
flags banana (2 < 5); pear at exactly 5 is excluded since its stored 5
admits no q < 5. -/
theorem check_low_items_spec_witness :
    "banana" ∈ (check_low_items [("apple", 10), ("banana", 2), ("pear", 5)] 5).1 :=
  ((check_low_items_spec [("apple", 10), ("banana", 2), ("pear", 5)] 5 "banana"
    (by decide)).1).mpr ⟨2, by decide, by decide⟩

/-- C9: adding under an empty (falsy) item name is a complete no-op: the
Stock Map and the log list are returned unchanged and nothing is
signaled. -/
theorem add_item_empty_name (s : Stock) (qty : Int) (logs : List String)
    (now : String) :
    add_item s "" qty logs now = (s, logs) := by
  simp [add_item]

/-- C10: `load_data` is atomic on failure — whenever it reports an error
(unopenable file or invalid JSON), the Stock Map after the call is exactly
the Stock Map before it. -/
theorem load_data_atomic_on_failure (s : Stock) (f : FileContent) (e : LoadErr)
    (h : (load_data s f).2 = some e) : (load_data s f).1 = s := by
  cases f with
  | absent => rfl
  | invalid => rfl
  | object m => simp [load_data] at h

/-- C10 witness: loading an unopenable file over the stock x at 1 reports
an I/O error and leaves the stock as it was. -/
theorem load_data_atomic_on_failure_witness :
    (load_data [("x", 1)] FileContent.absent).1 = [("x", 1)] :=
  load_data_atomic_on_failure [("x", 1)] FileContent.absent LoadErr.ioError rfl
